import Mathlib

/-!
Verification of the table-compilation logic of `scripts/make-tables`
(the Unicode Character Database compiler of unicorn-lib).

The Python source is shallowly embedded: Python dicts become association
lists in insertion order (`dictFind` / `dictUpsert`), Python sets of
codepoints become `Finset Nat`, and each encoder loop becomes a `foldl`
over the same iteration sequence as the source.
-/

namespace MakeTables

/-- Dictionary lookup: `m.get(k)` on a Python dict modelled as an
association list in insertion order (keys unique). -/
def dictFind {κ ν : Type} [DecidableEq κ] (m : List (κ × ν)) (k : κ) : Option ν :=
  (m.find? (fun p => p.1 = k)).map (fun p => p.2)

/-- Dictionary assignment `m[k] = v`: replaces the value in place when the
key is present (Python dicts keep the original position of an updated key),
otherwise appends the new binding at the end. -/
def dictUpsert {κ ν : Type} [DecidableEq κ] : List (κ × ν) → κ → ν → List (κ × ν)
  | [], k, v => [(k, v)]
  | p :: ps, k, v => if p.1 = k then (k, v) :: ps else p :: dictUpsert ps k v

/-- `table.get(k, defval)` in `write_sparse_table`. -/
def tableGet {V : Type} (t : List (Nat × V)) (k : Nat) (d : V) : V :=
  (dictFind t k).getD d

/-- `max(table)`: the largest key of the association (0 for the empty
association, on which the Python source would raise). -/
def maxKey {V : Type} (t : List (Nat × V)) : Nat :=
  (t.map Prod.fst).foldr max 0

/-- One iteration of the emission loop of `write_sparse_table`:
`v = f k; if v != lastv: emit (k, v); lastv = v`.  The state carries the
emitted entries and `lastv` (`none` models Python's initial `None`). -/
def emitStep {V : Type} [DecidableEq V] (f : Nat → V) (st : List (Nat × V) × Option V)
    (k : Nat) : List (Nat × V) × Option V :=
  if some (f k) = st.2 then (st.1, some (f k)) else (st.1 ++ [(k, f k)], some (f k))

/-- The emission loop of `write_sparse_table`, run for `k in range(0, n)`. -/
def emitRuns {V : Type} [DecidableEq V] (f : Nat → V) (n : Nat) : List (Nat × V) :=
  ((List.range n).foldl (emitStep f) ([], none)).1

/-- `write_sparse_table` (make-tables lines 123-140): scan
`k in range(0, max(table) + 2)` and emit a `(k, v)` breakpoint entry
whenever the value changes from the previous codepoint. -/
def write_sparse_table {V : Type} [DecidableEq V] (t : List (Nat × V)) (d : V) :
    List (Nat × V) :=
  emitRuns (fun k => tableGet t k d) (maxKey t + 2)

/-- Modelled from the spec: the runtime query engine is an external
collaborator (spec section 4.3, section 6) and is not part of the
repository source.  "Given a codepoint, binary-search the breakpoint
sequence for the greatest breakpoint <= the query codepoint and return its
value; if the codepoint is less than the first breakpoint, or the table is
empty, return the table's declared default."  On a list with strictly
increasing breakpoints, the greatest breakpoint <= `c` is the last entry
whose breakpoint is <= `c`. -/
def sparseQuery {V : Type} (E : List (Nat × V)) (d : V) (c : Nat) : V :=
  match (E.filter (fun p => p.1 ≤ c)).getLast? with
  | none => d
  | some p => p.2

/-- Number of maximal runs of equal adjacent values in a list. -/
def countRuns {V : Type} [DecidableEq V] : List V → Nat
  | [] => 0
  | [_] => 1
  | a :: b :: l => (if a = b then 0 else 1) + countRuns (b :: l)

/-- State of the `write_sparse_set` loop: the `subranges` dict mapping the
first codepoint of each interval to its current last codepoint, plus the
`first` and `last` loop variables.  Python initializes `first = last = -99`;
`last` is kept as an `Int` so the `c != last + 1` comparison is exact, and
`first` is only read after the first iteration has assigned a codepoint to
it (for `c : Nat`, `(c : Int) = -98` is impossible), so its initial value
is immaterial and is modelled as 0. -/
structure SetEncState where
  subranges : List (Nat × Nat)
  first : Nat
  last : Int

/-- One iteration of `write_sparse_set` (make-tables lines 116-119):
`if c != last + 1: first = c` then `subranges[first] = last = c`. -/
def sparseSetStep (st : SetEncState) (c : Nat) : SetEncState :=
  let f := if (c : Int) = st.last + 1 then st.first else c
  { subranges := dictUpsert st.subranges f c, first := f, last := (c : Int) }

/-- `write_sparse_set` (make-tables lines 112-120) applied to the sorted
codepoints of the set: the resulting dict of closed intervals
(first, last), in insertion order. -/
def write_sparse_set (codes : List Nat) : List (Nat × Nat) :=
  (codes.foldl sparseSetStep { subranges := [], first := 0, last := -99 }).subranges

/-- Interval decomposition of a sorted codepoint list, starting from a
current open interval `[f, l]`: extend it while the next codepoint is
exactly `l + 1`, otherwise close it and start a new interval.  A
restatement of the `write_sparse_set` loop used to reason about it. -/
def intervalsFrom (f l : Nat) : List Nat → List (Nat × Nat)
  | [] => [(f, l)]
  | c :: cs => if c = l + 1 then intervalsFrom f c cs else (f, l) :: intervalsFrom c c cs

/-- Interval decomposition of a whole sorted codepoint list. -/
def cleanIntervals : List Nat → List (Nat × Nat)
  | [] => []
  | c :: cs => intervalsFrom c c cs

/-- First normalization pass on the case-fold table (make-tables lines
543-545): `for code in simple_lower: if code not in simple_fold:
simple_fold[code] = code`.  Note the defaulted fold is the codepoint
itself. -/
def foldDefaultStep (F : List (Nat × Nat)) (p : Nat × Nat) : List (Nat × Nat) :=
  if dictFind F p.1 = none then F ++ [(p.1, p.1)] else F

/-- Fold normalization (make-tables lines 543-550): default every
codepoint of `simple_lower` that has no fold record, then keep only the
entries whose fold differs from the simple-lowercase value (or whose
codepoint has no simple-lowercase entry). -/
def foldNormalize (L F : List (Nat × Nat)) : List (Nat × Nat) :=
  (L.foldl foldDefaultStep F).filter (fun p =>
    match dictFind L p.1 with
    | none => true
    | some l => decide (l ≠ p.2))

/-- `case_folding_record` (make-tables lines 526-538) acting on the pair
(simple_fold, full_fold).  A `C`/`S` record carries a single codepoint
mapping (Python's `int(fields[2], 16)` would abort on anything else, which
is modelled as `none`); an `F` record stores its mapping in `full_fold`
only when it has more than one codepoint. -/
def case_folding_record (st : List (Nat × Nat) × List (Nat × List Nat)) (code : Nat)
    (status : String) (mapping : List Nat) :
    Option (List (Nat × Nat) × List (Nat × List Nat)) :=
  if status = "C" ∨ status = "S" then
    match mapping with
    | [m] => some (dictUpsert st.1 code m, st.2)
    | _ => none
  else if status = "F" then
    if 1 < mapping.length then some (st.1, dictUpsert st.2 code mapping) else some st
  else some st

/-- Lowercase hexadecimal digit character, as produced by Python's
`'{0:x}'` format. -/
def hexDigit (n : Nat) : Char :=
  if n < 10 then Char.ofNat (48 + n) else Char.ofNat (87 + n)

/-- Lowercase hexadecimal rendering of a natural number (`'{0:x}'.format`). -/
def natToHex (n : Nat) : List Char :=
  if n < 16 then [hexDigit n] else natToHex (n / 16) ++ [hexDigit (n % 16)]
decreasing_by exact Nat.div_lt_self (by omega) (by omega)

/-- Numeric value of a hexadecimal digit character. -/
def hexVal (c : Char) : Nat :=
  if c.toNat ≤ 57 then c.toNat - 48 else c.toNat - 87

/-- Parse a string of hexadecimal digit characters. -/
def hexFromChars (l : List Char) : Nat :=
  l.foldl (fun a c => 16 * a + hexVal c) 0

/-- The name blob (make-tables lines 316-318): concatenate
`'{0:x};{1};'.format(code, name)` for each record, in list order.  The
zlib compression applied afterwards is an external lossless byte-stream
compressor (spec sections 1 and 4.4) whose decompression restores exactly
this string, so compress-then-decompress is modelled as the identity. -/
def encodeNames (recs : List (Nat × List Char)) : List Char :=
  recs.foldl (fun s p => s ++ natToHex p.1 ++ ((';' :: p.2) ++ [';'])) []

/-- Split off the characters before the first `;`, dropping the `;`. -/
def takeUntilSemi : List Char → List Char × List Char
  | [] => ([], [])
  | c :: cs =>
    if c = ';' then ([], cs)
    else
      let r := takeUntilSemi cs
      (c :: r.1, r.2)

/-- Modelled from the spec: the consumer-side parse of the decompressed
blob is an external collaborator (spec section 4.4): "a consumer ... must
itself implement a scan/parse of the `<hex>;<name>;` grammar".  Each step
reads one hex codepoint up to `;` and one name up to `;`; the fuel bounds
recursion and is at least the number of records when set to the blob
length. -/
def parseRecords : Nat → List Char → List (Nat × List Char)
  | 0, _ => []
  | _, [] => []
  | fuel + 1, c :: cs =>
    let r1 := takeUntilSemi (c :: cs)
    let r2 := takeUntilSemi r1.2
    (hexFromChars r1.1, r2.1) :: parseRecords fuel r2.2

/-- Parse a whole name blob into its (codepoint, name) records. -/
def parseNames (l : List Char) : List (Nat × List Char) :=
  parseRecords l.length l

/-- Name lookup through the blob plus the corrected-name overlay (spec
section 4.4): parse the blob, find the codepoint's base name, and
substitute the overlay entry when one exists; a codepoint with no base
name has no name regardless of the overlay. -/
def lookupParsedName (blob : List Char) (overlay : List (Nat × List Char)) (c : Nat) :
    Option (List Char) :=
  match dictFind (parseNames blob) c with
  | none => none
  | some nm => some ((dictFind overlay c).getD nm)

/-- The composition exclusion set (make-tables lines 282-283 and 568-572):
the explicitly listed exclusions, plus every codepoint whose canonical
decomposition has length 1 (added while parsing UnicodeData.txt), plus —
for each codepoint `c` with a canonical decomposition — `c` whenever
`combining_class[c] != 0 or combining_class.get(canonical[c][0], 0) != 0`.
The combining-class dict is total on parsed codepoints, so both lookups
are modelled by `tableGet` with default 0. -/
def compositionExclusion (ex : Finset Nat) (canon : List (Nat × List Nat))
    (cc : List (Nat × Nat)) : Finset Nat :=
  let base := ex ∪ ((canon.filter (fun p => p.2.length = 1)).map Prod.fst).toFinset
  canon.foldl
    (fun s p =>
      if tableGet cc p.1 0 ≠ 0 ∨ tableGet cc (p.2.headD 0) 0 ≠ 0 then insert p.1 s else s)
    base

/-- The composition table (make-tables lines 574-578):
`for c in canonical: if c not in composition_exclusion:
composition[canonical[c]] = c`, iterating the canonical dict in insertion
order. -/
def compositionTable (canon : List (Nat × List Nat)) (excl : Finset Nat) :
    List (List Nat × Nat) :=
  canon.foldl (fun comp p => if p.1 ∉ excl then dictUpsert comp p.2 p.1 else comp) []

/-- `encode_script` (make-tables lines 617-621): fold the character codes
of a (lowercased) script code left to right with `tag = tag*256 + ord(c)`
(`tag << 8` is `tag * 256`). -/
def encode_script (s : List Nat) : Nat :=
  s.foldl (fun tag c => tag * 256 + c) 0

/-- The simple case-mapping part of `unicode_data_record` (make-tables
lines 289-300).  The three fields are the parsed simple uppercase,
lowercase and titlecase mappings, `none` when the source field is empty:
`uc = int(ucf,16) if ucf else code`, `lc` likewise, `tc = int(tcf,16) if
tcf else uc`; an entry is recorded in simple_upper / simple_lower when it
differs from the codepoint, and in simple_title when it differs from the
uppercase mapping. -/
def caseFields (code : Nat) (ucf lcf tcf : Option Nat) :
    Option Nat × Option Nat × Option Nat :=
  let uc := ucf.getD code
  let lc := lcf.getD code
  let tc := tcf.getD uc
  (if uc ≠ code then some uc else none,
   if lc ≠ code then some lc else none,
   if tc ≠ uc then some tc else none)

end MakeTables


namespace MakeTables

theorem emitStep_snd {V : Type} [DecidableEq V] (f : Nat → V) (st : List (Nat × V) × Option V)
    (k : Nat) : (emitStep f st k).2 = some (f k) := by
  unfold emitStep
  split <;> rfl

theorem emitStep_fst {V : Type} [DecidableEq V] (f : Nat → V) (st : List (Nat × V) × Option V)
    (k : Nat) :
    (emitStep f st k).1 = if some (f k) = st.2 then st.1 else st.1 ++ [(k, f k)] := by
  unfold emitStep
  split <;> rfl

theorem emitState_snd {V : Type} [DecidableEq V] (f : Nat → V) (n : Nat) (hn : n ≠ 0) :
    ((List.range n).foldl (emitStep f) ([], none)).2 = some (f (n - 1)) := by
  obtain ⟨m, rfl⟩ := Nat.exists_eq_succ_of_ne_zero hn
  rw [List.range_succ, List.foldl_append, List.foldl_cons, List.foldl_nil]
  rw [emitStep_snd]
  simp

theorem emitRuns_zero {V : Type} [DecidableEq V] (f : Nat → V) : emitRuns f 0 = [] := rfl

theorem emitRuns_one {V : Type} [DecidableEq V] (f : Nat → V) : emitRuns f 1 = [(0, f 0)] := by
  unfold emitRuns
  rw [show List.range 1 = [0] from rfl, List.foldl_cons, List.foldl_nil, emitStep_fst]
  simp

theorem emitRuns_succ {V : Type} [DecidableEq V] (f : Nat → V) (n : Nat) (hn : n ≠ 0) :
    emitRuns f (n + 1) = emitRuns f n ++ (if f n = f (n - 1) then [] else [(n, f n)]) := by
  unfold emitRuns
  rw [List.range_succ, List.foldl_append, List.foldl_cons, List.foldl_nil, emitStep_fst,
    emitState_snd f n hn]
  by_cases h : f n = f (n - 1)
  · simp [h]
  · simp [h]

theorem emitRuns_mem {V : Type} [DecidableEq V] (f : Nat → V) (n k : Nat) (v : V) :
    (k, v) ∈ emitRuns f n ↔ k < n ∧ v = f k ∧ (k = 0 ∨ f k ≠ f (k - 1)) := by
  induction n with
  | zero => simp [emitRuns]
  | succ m ih =>
    rcases Nat.eq_zero_or_pos m with h0 | hpos
    · subst h0
      rw [emitRuns_one]
      simp only [List.mem_singleton, Prod.mk.injEq]
      constructor
      · rintro ⟨hk, hv⟩
        subst hk
        exact ⟨by omega, hv, Or.inl rfl⟩
      · rintro ⟨hk, hv, _⟩
        have hk0 : k = 0 := by omega
        subst hk0
        exact ⟨rfl, hv⟩
    · rw [emitRuns_succ f m (by omega), List.mem_append, ih]
      by_cases hch : f m = f (m - 1)
      · simp only [if_pos hch, List.not_mem_nil, or_false]
        constructor
        · rintro ⟨h1, h2, h3⟩
          exact ⟨by omega, h2, h3⟩
        · rintro ⟨h1, h2, h3⟩
          refine ⟨?_, h2, h3⟩
          rcases Nat.lt_succ_iff_lt_or_eq.mp h1 with h | h
          · exact h
          · subst h
            rcases h3 with h | h
            · omega
            · exact absurd hch h
      · simp only [if_neg hch, List.mem_singleton, Prod.mk.injEq]
        constructor
        · rintro (⟨h1, h2, h3⟩ | ⟨h1, h2⟩)
          · exact ⟨by omega, h2, h3⟩
          · refine ⟨by omega, ?_, ?_⟩
            · rw [h1]
              exact h2
            · right
              rw [h1]
              exact hch
        · rintro ⟨h1, h2, h3⟩
          rcases Nat.lt_succ_iff_lt_or_eq.mp h1 with h | h
          · exact Or.inl ⟨h, h2, h3⟩
          · subst h
            exact Or.inr ⟨rfl, h2⟩

theorem sparseQuery_nil {V : Type} (d : V) (c : Nat) : sparseQuery [] d c = d := rfl

theorem sparseQuery_emitRuns {V : Type} [DecidableEq V] (f : Nat → V) (d : V) (n c : Nat)
    (hn : n ≠ 0) :
    sparseQuery (emitRuns f n) d c = f (min c (n - 1)) := by
  induction n with
  | zero => exact absurd rfl hn
  | succ m ih =>
    rcases Nat.eq_zero_or_pos m with h0 | hpos
    · subst h0
      rw [emitRuns_one]
      unfold sparseQuery
      simp
    · rw [emitRuns_succ f m (by omega)]
      by_cases hch : f m = f (m - 1)
      · rw [if_pos hch, List.append_nil, ih (by omega)]
        rcases Nat.lt_or_ge c m with h | h
        · congr 1
          omega
        · have h1 : min c (m + 1 - 1) = m := by omega
          have h2 : min c (m - 1) = m - 1 := by omega
          rw [h1, h2, hch]
      · rw [if_neg hch]
        unfold sparseQuery
        rw [List.filter_append]
        rcases Nat.lt_or_ge c m with h | h
        · have hf : List.filter (fun p => decide (p.1 ≤ c)) [(m, f m)] = [] := by
            simp
            omega
          rw [hf, List.append_nil]
          have := ih (by omega)
          unfold sparseQuery at this
          rw [this]
          congr 1
          omega
        · have hf : List.filter (fun p => decide (p.1 ≤ c)) [(m, f m)] = [(m, f m)] := by
            simp
            omega
          rw [hf, List.getLast?_concat]
          have hmin : min c (m + 1 - 1) = m := by omega
          rw [hmin]

theorem countRuns_concat {V : Type} [DecidableEq V] (a : V) (l : List V) :
    countRuns (l ++ [a]) = countRuns l + (if l.getLast? = some a then 0 else 1) := by
  induction l with
  | nil => simp [countRuns]
  | cons b l ih =>
    cases l with
    | nil =>
      by_cases h : b = a <;> simp [countRuns, h]
    | cons c l' =>
      have hl : (b :: c :: l') ++ [a] = b :: ((c :: l') ++ [a]) := rfl
      rw [hl]
      have hcc : countRuns (b :: ((c :: l') ++ [a])) =
          (if b = c then 0 else 1) + countRuns ((c :: l') ++ [a]) := rfl
      rw [hcc, ih, List.getLast?_cons_cons]
      have hcc2 : countRuns (b :: c :: l') = (if b = c then 0 else 1) + countRuns (c :: l') := rfl
      rw [hcc2]
      omega

theorem emitRuns_length {V : Type} [DecidableEq V] (f : Nat → V) (n : Nat) :
    (emitRuns f n).length = countRuns ((List.range n).map f) := by
  induction n with
  | zero => simp [emitRuns, countRuns]
  | succ m ih =>
    rcases Nat.eq_zero_or_pos m with h0 | hpos
    · subst h0
      rw [emitRuns_one]
      simp [countRuns]
    · rw [emitRuns_succ f m (by omega), List.range_succ, List.map_append, List.map_cons,
        List.map_nil, countRuns_concat, List.length_append, ih]
      have hlast : ((List.range m).map f).getLast? = some (f (m - 1)) := by
        obtain ⟨j, rfl⟩ := Nat.exists_eq_succ_of_ne_zero (by omega : m ≠ 0)
        rw [List.range_succ, List.map_append, List.map_cons, List.map_nil,
          List.getLast?_concat]
        simp
      rw [hlast]
      by_cases hch : f m = f (m - 1)
      · rw [if_pos hch, if_pos (by rw [hch])]
        simp
      · rw [if_neg hch, if_neg (by simpa using fun h => hch h.symm)]
        simp

theorem emitRuns_congr {V : Type} [DecidableEq V] (f g : Nat → V) (n : Nat)
    (h : ∀ k, k < n → f k = g k) :
    emitRuns f n = emitRuns g n := by
  induction n with
  | zero => rfl
  | succ m ih =>
    rcases Nat.eq_zero_or_pos m with h0 | hpos
    · subst h0
      rw [emitRuns_one, emitRuns_one, h 0 (by omega)]
    · rw [emitRuns_succ f m (by omega), emitRuns_succ g m (by omega),
        ih (fun k hk => h k (by omega)), h m (by omega), h (m - 1) (by omega)]

theorem emitRuns_ext {V : Type} [DecidableEq V] (f : Nat → V) (m n : Nat) (hm : m ≠ 0)
    (hmn : m ≤ n) (h : ∀ k, m ≤ k → k < n → f k = f (k - 1)) :
    emitRuns f n = emitRuns f m := by
  induction n, hmn using Nat.le_induction with
  | base => rfl
  | succ p hp ih =>
    rw [emitRuns_succ f p (by omega), if_pos (h p hp (by omega)), List.append_nil]
    exact ih (fun k hk1 hk2 => h k hk1 (by omega))

theorem le_maxKey_of_mem {V : Type} {t : List (Nat × V)} {p : Nat × V} (h : p ∈ t) :
    p.1 ≤ maxKey t := by
  induction t with
  | nil => simp at h
  | cons q t ih =>
    have hq : maxKey (q :: t) = max q.1 (maxKey t) := rfl
    rcases List.mem_cons.mp h with h | h
    · subst h
      rw [hq]
      omega
    · have := ih h
      rw [hq]
      omega

theorem maxKey_le {V : Type} {t : List (Nat × V)} {m : Nat} (h : ∀ p ∈ t, p.1 ≤ m) :
    maxKey t ≤ m := by
  induction t with
  | nil => simp [maxKey]
  | cons q t ih =>
    have hq : maxKey (q :: t) = max q.1 (maxKey t) := rfl
    rw [hq]
    have h1 := h q (List.mem_cons_self q t)
    have h2 := ih (fun p hp => h p (List.mem_cons_of_mem q hp))
    omega

theorem tableGet_of_maxKey_lt {V : Type} {t : List (Nat × V)} {k : Nat} (d : V)
    (h : maxKey t < k) :
    tableGet t k d = d := by
  unfold tableGet dictFind
  have hf : t.find? (fun p => decide (p.1 = k)) = none := by
    rw [List.find?_eq_none]
    intro p hp
    have := le_maxKey_of_mem hp
    simp
    omega
  rw [hf]
  rfl

end MakeTables

namespace MakeTables

theorem dictFind_nil {κ ν : Type} [DecidableEq κ] (k : κ) :
    dictFind ([] : List (κ × ν)) k = none := rfl

theorem dictFind_cons {κ ν : Type} [DecidableEq κ] (p : κ × ν) (m : List (κ × ν)) (k : κ) :
    dictFind (p :: m) k = if p.1 = k then some p.2 else dictFind m k := by
  by_cases h : p.1 = k <;> simp [dictFind, List.find?_cons, h]

theorem dictFind_append {κ ν : Type} [DecidableEq κ] (m₁ m₂ : List (κ × ν)) (k : κ) :
    dictFind (m₁ ++ m₂) k =
      match dictFind m₁ k with
      | some v => some v
      | none => dictFind m₂ k := by
  induction m₁ with
  | nil => rfl
  | cons p m₁ ih =>
    rw [List.cons_append, dictFind_cons, dictFind_cons]
    by_cases h : p.1 = k
    · simp [h]
    · simp only [if_neg h]
      exact ih

theorem dictFind_range_map {V : Type} (g : Nat → V) (m k : Nat) :
    dictFind ((List.range m).map (fun j => (j, g j))) k =
      if k < m then some (g k) else none := by
  induction m with
  | zero => simp [dictFind]
  | succ p ih =>
    rw [List.range_succ, List.map_append, List.map_cons, List.map_nil, dictFind_append, ih]
    by_cases h : k < p
    · have hk1 : k < p + 1 := by omega
      simp [h, hk1]
    · simp only [if_neg h]
      rw [dictFind_cons, dictFind_nil]
      by_cases h2 : p = k
      · subst h2
        simp
      · simp only [if_neg h2]
        rw [if_neg (by omega : ¬ k < p + 1)]

theorem tableGet_range_map {V : Type} (g : Nat → V) (m k : Nat) (d : V) :
    tableGet ((List.range m).map (fun j => (j, g j))) k d = if k < m then g k else d := by
  unfold tableGet
  rw [dictFind_range_map]
  by_cases h : k < m <;> simp [h]

theorem maxKey_range_map {V : Type} (g : Nat → V) (m : Nat) :
    maxKey ((List.range (m + 1)).map (fun j => (j, g j))) = m := by
  have hle : maxKey ((List.range (m + 1)).map (fun j => (j, g j))) ≤ m := by
    apply maxKey_le
    intro p hp
    obtain ⟨j, hj, rfl⟩ := List.mem_map.mp hp
    have := List.mem_range.mp hj
    omega
  have hge : m ≤ maxKey ((List.range (m + 1)).map (fun j => (j, g j))) := by
    have hmem : ((m : Nat), g m) ∈ (List.range (m + 1)).map (fun j => (j, g j)) :=
      List.mem_map.mpr ⟨m, List.mem_range.mpr (by omega), rfl⟩
    exact le_maxKey_of_mem hmem
  omega

/-- Claim C1: for every non-empty association `t`, default `d` and
codepoint `c ≤ 0x10FFFF`, querying the breakpoint sequence produced by
`write_sparse_table` (greatest breakpoint at most `c`, default before the
first breakpoint) returns exactly `t.get(c, d)`. -/
theorem claim_C1 {V : Type} [DecidableEq V] (t : List (Nat × V)) (d : V)
    (hne : t ≠ []) (hnd : (t.map Prod.fst).Nodup) (c : Nat) (hc : c ≤ 0x10FFFF) :
    sparseQuery (write_sparse_table t d) d c = tableGet t c d := by
  unfold write_sparse_table
  rw [sparseQuery_emitRuns _ d _ c (by omega)]
  rcases le_or_lt c (maxKey t + 1) with h | h
  · have hmin : min c (maxKey t + 2 - 1) = c := by omega
    rw [hmin]
  · have hmin : min c (maxKey t + 2 - 1) = maxKey t + 1 := by omega
    rw [hmin, tableGet_of_maxKey_lt d (by omega), tableGet_of_maxKey_lt d (by omega)]

theorem claim_C1_witness :
    sparseQuery (write_sparse_table [((2 : Nat), (5 : Nat))] 0) 0 1
      = tableGet [((2 : Nat), (5 : Nat))] 1 0 :=
  claim_C1 [(2, 5)] 0 (by decide) (by decide) 1 (by decide)

end MakeTables

namespace MakeTables

/-- Claim C3: the number of breakpoint entries emitted by
`write_sparse_table` equals the number of maximal runs of constant value
over the scanned domain `[0, max key + 1]`, and re-encoding the
association read back from the emitted breakpoint sequence (the decoded
value of every codepoint up to the last breakpoint) emits the same number
of breakpoints. -/
theorem claim_C3 {V : Type} [DecidableEq V] (t : List (Nat × V)) (d : V)
    (hne : t ≠ []) (hnd : (t.map Prod.fst).Nodup) :
    (write_sparse_table t d).length
        = countRuns ((List.range (maxKey t + 2)).map (fun k => tableGet t k d))
    ∧ (write_sparse_table ((List.range (maxKey (write_sparse_table t d) + 1)).map
          (fun k => (k, sparseQuery (write_sparse_table t d) d k))) d).length
        = (write_sparse_table t d).length := by
  constructor
  · exact emitRuns_length _ _
  · set f : Nat → V := fun k => tableGet t k d with hf
    set N : Nat := maxKey t + 2 with hN
    have hE : write_sparse_table t d = emitRuns f N := rfl
    set B : Nat := maxKey (write_sparse_table t d) with hB
    have hBN : B ≤ N - 1 := by
      rw [hB]
      apply maxKey_le
      intro p hp
      rw [hE] at hp
      have hmem := (emitRuns_mem f N p.1 p.2).mp (by simpa using hp)
      omega
    have hnochange : ∀ k, B < k → k < N → f k = f (k - 1) := by
      intro k hk1 hk2
      by_contra hcontra
      have hmem : (k, f k) ∈ emitRuns f N :=
        (emitRuns_mem f N k (f k)).mpr ⟨hk2, rfl, Or.inr hcontra⟩
      have := le_maxKey_of_mem (hE ▸ hmem)
      simp at this
      omega
    have hconst : ∀ j, B ≤ j → j ≤ N - 1 → f j = f B := by
      intro j hj1
      induction j, hj1 using Nat.le_induction with
      | base => intro h2; rfl
      | succ p hp ih =>
        intro h2
        have hstep : f (p + 1) = f p := by
          have h := hnochange (p + 1) (by omega) (by omega)
          simpa using h
        rw [hstep]
        exact ih (by omega)
    have hfN1 : f (N - 1) = d := by
      rw [hf]
      exact tableGet_of_maxKey_lt d (by omega)
    have hfB : f B = d := by
      rw [hconst (N - 1) hBN (by omega)] at hfN1
      exact hfN1
    set t' : List (Nat × V) := (List.range (B + 1)).map
      (fun k => (k, sparseQuery (write_sparse_table t d) d k)) with ht'
    have hgf : ∀ k, k < B + 2 → tableGet t' k d = f k := by
      intro k hk
      rw [ht', tableGet_range_map]
      by_cases h : k < B + 1
      · rw [if_pos h, hE, sparseQuery_emitRuns f d N k (by omega)]
        have hmin : min k (N - 1) = k := by omega
        rw [hmin]
      · rw [if_neg h]
        have hkB : k = B + 1 := by omega
        subst hkB
        rcases le_or_lt (B + 1) (N - 1) with h1 | h1
        · rw [hconst (B + 1) (by omega) h1, hfB]
        · have hBn : B + 1 = N := by omega
          rw [hBn, hf]
          exact (tableGet_of_maxKey_lt d (by omega)).symm
    have hmaxg : maxKey t' = B := by
      rw [ht']
      exact maxKey_range_map _ B
    have hfinal : emitRuns f (B + 2) = emitRuns f N := by
      rcases le_or_lt (B + 2) N with h1 | h1
      · exact (emitRuns_ext f (B + 2) N (by omega) h1
          (fun k hk1 hk2 => hnochange k (by omega) hk2)).symm
      · have hBn : B + 2 = N + 1 := by omega
        rw [hBn, emitRuns_succ f N (by omega)]
        have hcond : f N = f (N - 1) := by
          rw [hfN1, hf]
          exact tableGet_of_maxKey_lt d (by omega)
        rw [if_pos hcond, List.append_nil]
    have key : write_sparse_table t' d = write_sparse_table t d := by
      calc write_sparse_table t' d
          = emitRuns (fun k => tableGet t' k d) (maxKey t' + 2) := rfl
        _ = emitRuns (fun k => tableGet t' k d) (B + 2) := by rw [hmaxg]
        _ = emitRuns f (B + 2) := emitRuns_congr _ f _ hgf
        _ = emitRuns f N := hfinal
        _ = write_sparse_table t d := hE.symm
    rw [key]

theorem claim_C3_witness :
    (write_sparse_table [((2 : Nat), (5 : Nat))] 0).length
        = countRuns ((List.range (maxKey [((2 : Nat), (5 : Nat))] + 2)).map
            (fun k => tableGet [((2 : Nat), (5 : Nat))] k 0))
    ∧ (write_sparse_table ((List.range
            (maxKey (write_sparse_table [((2 : Nat), (5 : Nat))] 0) + 1)).map
          (fun k => (k, sparseQuery (write_sparse_table [((2 : Nat), (5 : Nat))] 0) 0 k))) 0).length
        = (write_sparse_table [((2 : Nat), (5 : Nat))] 0).length :=
  claim_C3 [(2, 5)] 0 (by decide) (by decide)

theorem emitRuns_getLast {V : Type} [DecidableEq V] (f : Nat → V) (n : Nat) (hn : n ≠ 0) :
    ∃ k, (emitRuns f n).getLast? = some (k, f (n - 1)) := by
  induction n with
  | zero => exact absurd rfl hn
  | succ m ih =>
    rcases Nat.eq_zero_or_pos m with h0 | hpos
    · subst h0
      refine ⟨0, ?_⟩
      rw [emitRuns_one]
      rfl
    · rw [emitRuns_succ f m (by omega)]
      by_cases hch : f m = f (m - 1)
      · rw [if_pos hch, List.append_nil]
        obtain ⟨k, hk⟩ := ih (by omega)
        refine ⟨k, ?_⟩
        rw [hk]
        show some (k, f (m - 1)) = some (k, f m)
        rw [hch]
      · rw [if_neg hch, List.getLast?_concat]
        exact ⟨m, rfl⟩

/-- Claim C4, corrected: the emitted breakpoint sequence ends with the
sentinel entry `(max key + 1, default)` whenever the association's value
at its maximum key differs from the default; when it equals the default
no entry with breakpoint `max key + 1` is emitted.  In every case the
sequence ends in an entry carrying the default value, and every query at
or beyond `max key + 1` returns the default. -/
theorem claim_C4 {V : Type} [DecidableEq V] (t : List (Nat × V)) (d : V)
    (hne : t ≠ []) (hnd : (t.map Prod.fst).Nodup) :
    (tableGet t (maxKey t) d ≠ d →
      (write_sparse_table t d).getLast? = some (maxKey t + 1, d))
    ∧ (tableGet t (maxKey t) d = d →
      ∀ v, (maxKey t + 1, v) ∉ write_sparse_table t d)
    ∧ (∃ k, (write_sparse_table t d).getLast? = some (k, d))
    ∧ (∀ c, maxKey t + 1 ≤ c → sparseQuery (write_sparse_table t d) d c = d) := by
  have hd1 : tableGet t (maxKey t + 1) d = d := tableGet_of_maxKey_lt d (by omega)
  refine ⟨?_, ?_, ?_, ?_⟩
  · intro hdiv
    unfold write_sparse_table
    rw [show maxKey t + 2 = (maxKey t + 1) + 1 from rfl,
      emitRuns_succ _ (maxKey t + 1) (by omega)]
    have hcond : ¬ (tableGet t (maxKey t + 1) d = tableGet t (maxKey t + 1 - 1) d) := by
      rw [hd1, show maxKey t + 1 - 1 = maxKey t from rfl]
      intro h
      exact hdiv h.symm
    rw [if_neg hcond, List.getLast?_concat, hd1]
  · intro heq v hmem
    unfold write_sparse_table at hmem
    obtain ⟨_, _, hch⟩ :=
      (emitRuns_mem (fun k => tableGet t k d) (maxKey t + 2) (maxKey t + 1) v).mp hmem
    rcases hch with h0 | hne2
    · omega
    · apply hne2
      show tableGet t (maxKey t + 1) d = tableGet t (maxKey t + 1 - 1) d
      rw [hd1, show maxKey t + 1 - 1 = maxKey t from rfl, heq]
  · unfold write_sparse_table
    obtain ⟨k, hk⟩ := emitRuns_getLast (fun k => tableGet t k d) (maxKey t + 2) (by omega)
    refine ⟨k, ?_⟩
    rw [hk]
    show some (k, tableGet t (maxKey t + 2 - 1) d) = some (k, d)
    rw [show maxKey t + 2 - 1 = maxKey t + 1 from rfl, hd1]
  · intro c hc
    unfold write_sparse_table
    rw [sparseQuery_emitRuns _ d _ c (by omega)]
    have hmin : min c (maxKey t + 2 - 1) = maxKey t + 1 := by omega
    rw [hmin, hd1]

/-- Claim C4 as stated is false: for the association `{0: 0}` with default
`0` (a non-empty association), the emitted sequence is `[(0, 0)]`, whose
last breakpoint is 0, not `max key + 1 = 1`: no explicit sentinel entry is
emitted when the value at the maximum key equals the default. -/
theorem claim_C4_counterexample :
    (write_sparse_table [((0 : Nat), (0 : Nat))] 0).getLast?.map Prod.fst
      ≠ some (maxKey [((0 : Nat), (0 : Nat))] + 1) := by decide

theorem claim_C4_witness :
    ((write_sparse_table [((2 : Nat), (5 : Nat))] 0).getLast?
        = some (maxKey [((2 : Nat), (5 : Nat))] + 1, 0))
    ∧ (∀ v, (maxKey [((0 : Nat), (0 : Nat))] + 1, v)
        ∉ write_sparse_table [((0 : Nat), (0 : Nat))] 0)
    ∧ (∃ k, (write_sparse_table [((0 : Nat), (0 : Nat))] 0).getLast? = some (k, 0))
    ∧ sparseQuery (write_sparse_table [((2 : Nat), (5 : Nat))] 0) 0 7 = 0 :=
  ⟨(claim_C4 [(2, 5)] 0 (by decide) (by decide)).1 (by decide),
   (claim_C4 [(0, 0)] 0 (by decide) (by decide)).2.1 (by decide),
   (claim_C4 [(0, 0)] 0 (by decide) (by decide)).2.2.1,
   (claim_C4 [(2, 5)] 0 (by decide) (by decide)).2.2.2 7 (by decide)⟩

end MakeTables

namespace MakeTables

theorem dictUpsert_of_not_mem {κ ν : Type} [DecidableEq κ] (m : List (κ × ν)) (k : κ) (v : ν)
    (h : ∀ p ∈ m, p.1 ≠ k) :
    dictUpsert m k v = m ++ [(k, v)] := by
  induction m with
  | nil => rfl
  | cons p m ih =>
    unfold dictUpsert
    rw [if_neg (h p (List.mem_cons_self p m)), ih (fun q hq => h q (List.mem_cons_of_mem p hq))]
    rfl

theorem dictUpsert_append_last {κ ν : Type} [DecidableEq κ] (A : List (κ × ν)) (f : κ)
    (l v : ν) (h : ∀ p ∈ A, p.1 ≠ f) :
    dictUpsert (A ++ [(f, l)]) f v = A ++ [(f, v)] := by
  induction A with
  | nil => simp [dictUpsert]
  | cons p A ih =>
    rw [List.cons_append]
    unfold dictUpsert
    rw [if_neg (h p (List.mem_cons_self p A)), ih (fun q hq => h q (List.mem_cons_of_mem p hq))]
    rfl

theorem sparseSetStep_mk (A : List (Nat × Nat)) (f0 : Nat) (l0 : Int) (c : Nat) :
    sparseSetStep ⟨A, f0, l0⟩ c =
      ⟨dictUpsert A (if (c : Int) = l0 + 1 then f0 else c) c,
       (if (c : Int) = l0 + 1 then f0 else c), (c : Int)⟩ := rfl

theorem intervalsFrom_cons_ext (f l a : Nat) (cs : List Nat) (h : a = l + 1) :
    intervalsFrom f l (a :: cs) = intervalsFrom f a cs := by
  simp [intervalsFrom, h]

theorem intervalsFrom_cons_new (f l a : Nat) (cs : List Nat) (h : a ≠ l + 1) :
    intervalsFrom f l (a :: cs) = (f, l) :: intervalsFrom a a cs := by
  simp [intervalsFrom, h]

theorem sparse_set_fold_inv (cs : List Nat) :
    ∀ (A : List (Nat × Nat)) (f l : Nat),
      List.Pairwise (· < ·) cs → (∀ x ∈ cs, l < x) → f ≤ l →
      (∀ p ∈ A, p.1 < f) →
      (cs.foldl sparseSetStep ⟨A ++ [(f, l)], f, (l : Int)⟩).subranges
        = A ++ intervalsFrom f l cs := by
  induction cs with
  | nil =>
    intro A f l _ _ _ _
    simp [intervalsFrom]
  | cons c cs ih =>
    intro A f l hpw hgt hfl hkeys
    obtain ⟨h1, h2⟩ := List.pairwise_cons.mp hpw
    have hlc : l < c := hgt c (List.mem_cons_self c cs)
    rw [List.foldl_cons, sparseSetStep_mk]
    by_cases hc : c = l + 1
    · have hcond : (c : Int) = (l : Int) + 1 := by omega
      rw [if_pos hcond,
        dictUpsert_append_last A f l c (fun p hp => by have := hkeys p hp; omega),
        intervalsFrom_cons_ext f l c cs hc]
      exact ih A f c h2 h1 (by omega) hkeys
    · have hcond : ¬ ((c : Int) = (l : Int) + 1) := by omega
      rw [if_neg hcond,
        dictUpsert_of_not_mem (A ++ [(f, l)]) c c (by
          intro p hp
          rcases List.mem_append.mp hp with h | h
          · have := hkeys p h
            omega
          · rcases List.mem_singleton.mp h with rfl
            simp
            omega),
        intervalsFrom_cons_new f l c cs hc]
      have hih := ih (A ++ [(f, l)]) c c h2 h1 (le_refl c) (by
        intro p hp
        rcases List.mem_append.mp hp with h | h
        · have := hkeys p h
          omega
        · rcases List.mem_singleton.mp h with rfl
          simp
          omega)
      rw [hih, List.append_assoc, List.singleton_append]

theorem write_sparse_set_eq (codes : List Nat) (hs : List.Pairwise (· < ·) codes) :
    write_sparse_set codes = cleanIntervals codes := by
  cases codes with
  | nil => rfl
  | cons c cs =>
    obtain ⟨h1, h2⟩ := List.pairwise_cons.mp hs
    unfold write_sparse_set
    rw [List.foldl_cons, sparseSetStep_mk]
    have hcond : ¬ ((c : Int) = (-99 : Int) + 1) := by omega
    rw [if_neg hcond]
    have hup : dictUpsert ([] : List (Nat × Nat)) c c = [] ++ [(c, c)] := rfl
    rw [hup]
    have := sparse_set_fold_inv cs [] c c h2 h1 (le_refl c) (by simp)
    rw [this]
    rfl

theorem intervalsFrom_cover (cs : List Nat) :
    ∀ (f l c : Nat), List.Pairwise (· < ·) cs → (∀ x ∈ cs, l < x) → f ≤ l →
      ((∃ p ∈ intervalsFrom f l cs, p.1 ≤ c ∧ c ≤ p.2) ↔ ((f ≤ c ∧ c ≤ l) ∨ c ∈ cs)) := by
  induction cs with
  | nil =>
    intro f l c _ _ _
    simp [intervalsFrom]
  | cons a cs ih =>
    intro f l c hpw hgt hfl
    obtain ⟨h1, h2⟩ := List.pairwise_cons.mp hpw
    have hla : l < a := hgt a (List.mem_cons_self a cs)
    by_cases ha : a = l + 1
    · rw [intervalsFrom_cons_ext f l a cs ha, ih f a c h2 h1 (by omega), List.mem_cons]
      constructor
      · rintro (⟨hx, hy⟩ | h)
        · rcases le_or_lt c l with h3 | h3
          · exact Or.inl ⟨hx, h3⟩
          · right
            left
            omega
        · exact Or.inr (Or.inr h)
      · rintro (⟨hx, hy⟩ | h | h)
        · exact Or.inl ⟨hx, by omega⟩
        · subst h
          exact Or.inl ⟨by omega, by omega⟩
        · exact Or.inr h
    · rw [intervalsFrom_cons_new f l a cs ha]
      have hrest := ih a a c h2 h1 (le_refl a)
      rw [List.mem_cons]
      constructor
      · rintro ⟨p, hp, hc1, hc2⟩
        rcases List.mem_cons.mp hp with h | h
        · subst h
          exact Or.inl ⟨hc1, hc2⟩
        · rcases hrest.mp ⟨p, h, hc1, hc2⟩ with ⟨hx, hy⟩ | h3
          · right
            left
            omega
          · exact Or.inr (Or.inr h3)
      · rintro (⟨hx, hy⟩ | h | h)
        · exact ⟨(f, l), List.mem_cons_self _ _, hx, hy⟩
        · subst h
          obtain ⟨p, hp, hc1, hc2⟩ := hrest.mpr (Or.inl ⟨le_refl c, le_refl c⟩)
          exact ⟨p, List.mem_cons_of_mem _ hp, hc1, hc2⟩
        · obtain ⟨p, hp, hc1, hc2⟩ := hrest.mpr (Or.inr h)
          exact ⟨p, List.mem_cons_of_mem _ hp, hc1, hc2⟩

theorem intervalsFrom_props (cs : List Nat) :
    ∀ (f l : Nat), List.Pairwise (· < ·) cs → (∀ x ∈ cs, l < x) → f ≤ l →
      (∀ p ∈ intervalsFrom f l cs, f ≤ p.1 ∧ p.1 ≤ p.2)
      ∧ List.Pairwise (fun p q : Nat × Nat => p.2 + 1 < q.1) (intervalsFrom f l cs) := by
  induction cs with
  | nil =>
    intro f l _ _ hfl
    constructor
    · intro p hp
      rcases List.mem_singleton.mp hp with rfl
      exact ⟨le_refl f, hfl⟩
    · simp [intervalsFrom]
  | cons a cs ih =>
    intro f l hpw hgt hfl
    obtain ⟨h1, h2⟩ := List.pairwise_cons.mp hpw
    have hla : l < a := hgt a (List.mem_cons_self a cs)
    by_cases ha : a = l + 1
    · rw [intervalsFrom_cons_ext f l a cs ha]
      exact ih f a h2 h1 (by omega)
    · rw [intervalsFrom_cons_new f l a cs ha]
      obtain ⟨ihb, ihp⟩ := ih a a h2 h1 (le_refl a)
      constructor
      · intro p hp
        rcases List.mem_cons.mp hp with h | h
        · subst h
          exact ⟨le_refl f, hfl⟩
        · have := ihb p h
          exact ⟨by omega, this.2⟩
      · rw [List.pairwise_cons]
        refine ⟨?_, ihp⟩
        intro q hq
        have := ihb q hq
        simp only
        omega

/-- Claim C2: for every sorted non-empty set of codepoints, the intervals
produced by `write_sparse_set` cover a codepoint exactly when it is a
member of the set; both endpoints of every interval are members and the
codepoints immediately outside each interval (one below the first, one
above the last) are non-members. -/
theorem claim_C2 (codes : List Nat) (hne : codes ≠ [])
    (hs : List.Pairwise (· < ·) codes) :
    (∀ c, (∃ p ∈ write_sparse_set codes, p.1 ≤ c ∧ c ≤ p.2) ↔ c ∈ codes)
    ∧ ∀ p ∈ write_sparse_set codes,
        p.1 ∈ codes ∧ p.2 ∈ codes
        ∧ (∀ q, q + 1 = p.1 → q ∉ codes) ∧ p.2 + 1 ∉ codes := by
  rw [write_sparse_set_eq codes hs]
  cases codes with
  | nil => exact absurd rfl hne
  | cons a cs =>
    obtain ⟨h1, h2⟩ := List.pairwise_cons.mp hs
    have hclean : cleanIntervals (a :: cs) = intervalsFrom a a cs := rfl
    rw [hclean]
    have hcover' : ∀ c, (∃ p ∈ intervalsFrom a a cs, p.1 ≤ c ∧ c ≤ p.2) ↔ c ∈ a :: cs := by
      intro c
      rw [intervalsFrom_cover cs a a c h2 h1 (le_refl a), List.mem_cons]
      constructor
      · rintro (⟨hx, hy⟩ | h)
        · left
          omega
        · exact Or.inr h
      · rintro (h | h)
        · exact Or.inl ⟨by omega, by omega⟩
        · exact Or.inr h
    obtain ⟨hbounds, hsep⟩ := intervalsFrom_props cs a a h2 h1 (le_refl a)
    refine ⟨hcover', ?_⟩
    intro p hp
    have hb := hbounds p hp
    have hp1 : p.1 ∈ a :: cs := (hcover' p.1).mp ⟨p, hp, le_refl p.1, hb.2⟩
    have hp2 : p.2 ∈ a :: cs := (hcover' p.2).mp ⟨p, hp, hb.2, le_refl p.2⟩
    have hpairR : ∀ q ∈ intervalsFrom a a cs, q ≠ p → (q.2 + 1 < p.1 ∨ p.2 + 1 < q.1) := by
      intro q hq hne2
      have hsym : Symmetric (fun u w : Nat × Nat => u.2 + 1 < w.1 ∨ w.2 + 1 < u.1) := by
        intro x y h
        exact h.symm
      exact List.Pairwise.forall hsym (hsep.imp (fun h => Or.inl h)) hq hp hne2
    refine ⟨hp1, hp2, ?_, ?_⟩
    · intro q hq1 hqmem
      obtain ⟨r, hr, hr1, hr2⟩ := (hcover' q).mpr hqmem
      have hrp : r ≠ p := by
        intro h
        subst h
        omega
      rcases hpairR r hr hrp with h | h
      · omega
      · have := hbounds r hr
        omega
    · intro hmem
      obtain ⟨r, hr, hr1, hr2⟩ := (hcover' (p.2 + 1)).mpr hmem
      have hrp : r ≠ p := by
        intro h
        subst h
        omega
      rcases hpairR r hr hrp with h | h
      · omega
      · omega

theorem claim_C2_witness :
    ∃ p ∈ write_sparse_set [1, 2, 5], p.1 ≤ 2 ∧ 2 ≤ p.2 :=
  ((claim_C2 [1, 2, 5] (by decide) (by decide)).1 2).mpr (by decide)

end MakeTables

namespace MakeTables

theorem encode_script_shift (s : List Nat) :
    ∀ init : Nat, s.foldl (fun tag c => tag * 256 + c) init
      = init * 256 ^ s.length + Nat.ofDigits 256 s.reverse := by
  induction s with
  | nil =>
    intro init
    simp [Nat.ofDigits_nil]
  | cons c cs ih =>
    intro init
    rw [List.foldl_cons, ih (init * 256 + c), List.reverse_cons, Nat.ofDigits_append,
      Nat.ofDigits_singleton, List.length_reverse, List.length_cons]
    ring

theorem encode_script_eq_ofDigits (s : List Nat) :
    encode_script s = Nat.ofDigits 256 s.reverse := by
  unfold encode_script
  rw [encode_script_shift s 0]
  simp

/-- Claim C9: the script tag packer `tag = tag*256 + character_code` is
injective on codes of length 1 to 4 whose character codes are lowercase
ASCII letters: distinct codes pack to distinct integers. -/
theorem claim_C9 (s t : List Nat)
    (hs1 : 1 ≤ s.length) (hs4 : s.length ≤ 4) (ht1 : 1 ≤ t.length) (ht4 : t.length ≤ 4)
    (hsc : ∀ c ∈ s, 97 ≤ c ∧ c ≤ 122) (htc : ∀ c ∈ t, 97 ≤ c ∧ c ≤ 122)
    (hne : s ≠ t) : encode_script s ≠ encode_script t := by
  intro heq
  rw [encode_script_eq_ofDigits, encode_script_eq_ofDigits] at heq
  have hds : Nat.digits 256 (Nat.ofDigits 256 s.reverse) = s.reverse :=
    Nat.digits_ofDigits 256 (by omega) s.reverse
      (fun l hl => by
        have := hsc l (List.mem_reverse.mp hl)
        omega)
      (fun h => by
        have hmem := List.getLast_mem h
        have := hsc _ (List.mem_reverse.mp hmem)
        omega)
  have hdt : Nat.digits 256 (Nat.ofDigits 256 t.reverse) = t.reverse :=
    Nat.digits_ofDigits 256 (by omega) t.reverse
      (fun l hl => by
        have := htc l (List.mem_reverse.mp hl)
        omega)
      (fun h => by
        have hmem := List.getLast_mem h
        have := htc _ (List.mem_reverse.mp hmem)
        omega)
  rw [heq, hdt] at hds
  exact hne (List.reverse_injective hds).symm

theorem claim_C9_witness : encode_script [97] ≠ encode_script [97, 97] :=
  claim_C9 [97] [97, 97] (by decide) (by decide) (by decide) (by decide)
    (by decide) (by decide) (by decide)

theorem entryIf_eq (x : Option Nat) (dflt v : Nat) :
    (if x.getD dflt ≠ dflt then some (x.getD dflt) else none) = some v
      ↔ (x = some v ∧ v ≠ dflt) := by
  cases x with
  | none => simp
  | some w =>
    simp only [Option.getD_some]
    by_cases h : w = dflt
    · subst h
      simp
      omega
    · rw [if_pos h]
      constructor
      · intro hv
        refine ⟨hv, fun hc => h ?_⟩
        rw [Option.some.inj hv, hc]
      · rintro ⟨h1, _⟩
        exact h1

/-- Claim C10: in `unicode_data_record`, a missing simple-titlecase field
defaults to the uppercase mapping (so it never produces a titlecase
entry), an uppercase or lowercase entry is recorded exactly when the
mapping differs from the codepoint, and a titlecase entry is recorded
exactly when the titlecase value differs from the (possibly defaulted)
uppercase mapping. -/
theorem claim_C10 (code : Nat) (ucf lcf tcf : Option Nat) :
    (tcf = none → (caseFields code ucf lcf tcf).2.2 = none)
    ∧ (∀ v, (caseFields code ucf lcf tcf).1 = some v ↔ (ucf = some v ∧ v ≠ code))
    ∧ (∀ v, (caseFields code ucf lcf tcf).2.1 = some v ↔ (lcf = some v ∧ v ≠ code))
    ∧ (∀ v, (caseFields code ucf lcf tcf).2.2 = some v
        ↔ (tcf = some v ∧ v ≠ ucf.getD code)) := by
  refine ⟨?_, ?_, ?_, ?_⟩
  · rintro rfl
    simp [caseFields]
  · intro v
    simp only [caseFields]
    exact entryIf_eq ucf code v
  · intro v
    simp only [caseFields]
    exact entryIf_eq lcf code v
  · intro v
    simp only [caseFields]
    exact entryIf_eq tcf (ucf.getD code) v

theorem claim_C10_witness :
    (caseFields 0x49 none (some 0x69) none).2.2 = none
    ∧ ((caseFields 0x49 none (some 0x69) none).2.1 = some 0x69
        ↔ (some 0x69 = some 0x69 ∧ 0x69 ≠ 0x49)) :=
  ⟨(claim_C10 0x49 none (some 0x69) none).1 rfl,
   (claim_C10 0x49 none (some 0x69) none).2.2.1 0x69⟩

end MakeTables

namespace MakeTables

theorem exclusion_fold_mono (canon : List (Nat × List Nat)) (cc : List (Nat × Nat)) :
    ∀ s : Finset Nat,
      s ⊆ canon.foldl
        (fun s p =>
          if tableGet cc p.1 0 ≠ 0 ∨ tableGet cc (p.2.headD 0) 0 ≠ 0 then insert p.1 s else s)
        s := by
  induction canon with
  | nil => intro s; exact Finset.Subset.refl s
  | cons q canon ih =>
    intro s
    rw [List.foldl_cons]
    by_cases h : tableGet cc q.1 0 ≠ 0 ∨ tableGet cc (q.2.headD 0) 0 ≠ 0
    · rw [if_pos h]
      exact Finset.Subset.trans (Finset.subset_insert q.1 s) (ih (insert q.1 s))
    · rw [if_neg h]
      exact ih s

theorem exclusion_fold_mem (canon : List (Nat × List Nat)) (cc : List (Nat × Nat)) :
    ∀ (s : Finset Nat) (p : Nat × List Nat), p ∈ canon →
      (tableGet cc p.1 0 ≠ 0 ∨ tableGet cc (p.2.headD 0) 0 ≠ 0) →
      p.1 ∈ canon.foldl
        (fun s p =>
          if tableGet cc p.1 0 ≠ 0 ∨ tableGet cc (p.2.headD 0) 0 ≠ 0 then insert p.1 s else s)
        s := by
  induction canon with
  | nil =>
    intro s p hp _
    simp at hp
  | cons q canon ih =>
    intro s p hp hcond
    rw [List.foldl_cons]
    rcases List.mem_cons.mp hp with h | h
    · subst h
      rw [if_pos hcond]
      exact (exclusion_fold_mono canon cc (insert p.1 s))
        (Finset.mem_insert_self p.1 s)
    · by_cases hq : tableGet cc q.1 0 ≠ 0 ∨ tableGet cc (q.2.headD 0) 0 ≠ 0
      · rw [if_pos hq]
        exact ih (insert q.1 s) p h hcond
      · rw [if_neg hq]
        exact ih s p h hcond

/-- Claim C7, corrected: the composition exclusion set contains every
explicitly listed exclusion, every codepoint whose canonical decomposition
has length 1, and — among codepoints that have a canonical decomposition —
every codepoint whose decomposition's first element has nonzero combining
class and every codepoint whose own combining class is nonzero; the
combining-class pass only adds codepoints, so nothing already excluded is
removed.  (A codepoint with nonzero combining class but no canonical
decomposition is not inspected by the pass.) -/
theorem claim_C7 (ex : Finset Nat) (canon : List (Nat × List Nat)) (cc : List (Nat × Nat)) :
    (∀ x ∈ ex, x ∈ compositionExclusion ex canon cc)
    ∧ (∀ p ∈ canon, p.2.length = 1 → p.1 ∈ compositionExclusion ex canon cc)
    ∧ (∀ p ∈ canon, tableGet cc (p.2.headD 0) 0 ≠ 0 → p.1 ∈ compositionExclusion ex canon cc)
    ∧ (∀ p ∈ canon, tableGet cc p.1 0 ≠ 0 → p.1 ∈ compositionExclusion ex canon cc)
    ∧ (∀ x ∈ ex ∪ ((canon.filter (fun p => p.2.length = 1)).map Prod.fst).toFinset,
        x ∈ compositionExclusion ex canon cc) := by
  have hbase : ∀ x ∈ ex ∪ ((canon.filter (fun p => p.2.length = 1)).map Prod.fst).toFinset,
      x ∈ compositionExclusion ex canon cc := by
    intro x hx
    unfold compositionExclusion
    exact exclusion_fold_mono canon cc _ hx
  refine ⟨?_, ?_, ?_, ?_, hbase⟩
  · intro x hx
    exact hbase x (Finset.mem_union_left _ hx)
  · intro p hp hlen
    apply hbase
    apply Finset.mem_union_right
    rw [List.mem_toFinset]
    exact List.mem_map.mpr ⟨p, List.mem_filter.mpr ⟨hp, by simp [hlen]⟩, rfl⟩
  · intro p hp hcond
    unfold compositionExclusion
    exact exclusion_fold_mem canon cc _ p hp (Or.inr hcond)
  · intro p hp hcond
    unfold compositionExclusion
    exact exclusion_fold_mem canon cc _ p hp (Or.inl hcond)

/-- Claim C7 as stated is false: U+0300 has combining class 230 (nonzero)
but, having no canonical decomposition, it is not added to the composition
exclusion set by the combining-class pass. -/
theorem claim_C7_counterexample :
    tableGet [((0x300 : Nat), (230 : Nat))] 0x300 0 ≠ 0
    ∧ (0x300 : Nat) ∉ compositionExclusion ∅ [] [((0x300 : Nat), (230 : Nat))] := by
  decide

theorem claim_C7_witness :
    (0xC0 : Nat) ∈ compositionExclusion {1} [(0xC0, [0x300, 0x41])] [((0x300 : Nat), (230 : Nat))] :=
  (claim_C7 {1} [(0xC0, [0x300, 0x41])] [(0x300, 230)]).2.2.1
    (0xC0, [0x300, 0x41]) (by decide) (by decide)

end MakeTables

namespace MakeTables

theorem dictFind_dictUpsert_self {κ ν : Type} [DecidableEq κ] (m : List (κ × ν)) (k : κ)
    (v : ν) : dictFind (dictUpsert m k v) k = some v := by
  induction m with
  | nil =>
    rw [show dictUpsert ([] : List (κ × ν)) k v = [(k, v)] from rfl, dictFind_cons]
    simp
  | cons p m ih =>
    unfold dictUpsert
    by_cases h : p.1 = k
    · rw [if_pos h, dictFind_cons]
      simp
    · rw [if_neg h, dictFind_cons, if_neg h]
      exact ih

theorem dictFind_dictUpsert_ne {κ ν : Type} [DecidableEq κ] (m : List (κ × ν)) (k k' : κ)
    (v : ν) (h : k' ≠ k) : dictFind (dictUpsert m k v) k' = dictFind m k' := by
  induction m with
  | nil =>
    rw [show dictUpsert ([] : List (κ × ν)) k v = [(k, v)] from rfl, dictFind_cons,
      if_neg (fun hk : (k, v).1 = k' => h hk.symm)]
  | cons p m ih =>
    unfold dictUpsert
    by_cases hp : p.1 = k
    · rw [if_pos hp, dictFind_cons, if_neg (fun hk : (k, v).1 = k' => h hk.symm),
        dictFind_cons, if_neg (fun hk : p.1 = k' => h ((hp.symm.trans hk).symm))]
    · rw [if_neg hp, dictFind_cons, dictFind_cons]
      by_cases hp' : p.1 = k'
      · rw [if_pos hp', if_pos hp']
      · rw [if_neg hp', if_neg hp']
        exact ih

theorem comp_fold_lookup (excl : Finset Nat) (canon : List (Nat × List Nat)) :
    ∀ (m : List (List Nat × Nat)) (ds : List Nat),
      dictFind (canon.foldl
          (fun comp p => if p.1 ∉ excl then dictUpsert comp p.2 p.1 else comp) m) ds
        = match (canon.filter (fun p => decide (p.1 ∉ excl) && decide (p.2 = ds))).getLast? with
          | some p => some p.1
          | none => dictFind m ds := by
  induction canon with
  | nil => intro m ds; rfl
  | cons q canon ih =>
    intro m ds
    rw [List.foldl_cons, List.filter_cons]
    by_cases hq1 : q.1 ∉ excl
    · rw [if_pos hq1]
      by_cases hq2 : q.2 = ds
      · rw [if_pos (by simp [hq1, hq2])]
        rw [ih (dictUpsert m q.2 q.1) ds]
        cases h : (canon.filter (fun p => decide (p.1 ∉ excl) && decide (p.2 = ds))).getLast? with
        | none =>
          have hnil : canon.filter (fun p => decide (p.1 ∉ excl) && decide (p.2 = ds)) = [] := by
            cases hf : canon.filter (fun p => decide (p.1 ∉ excl) && decide (p.2 = ds)) with
            | nil => rfl
            | cons a l =>
              rw [hf, List.getLast?_cons] at h
              simp at h
          rw [hnil]
          show dictFind (dictUpsert m q.2 q.1) ds = some q.1
          rw [hq2, dictFind_dictUpsert_self]
        | some p =>
          have hgl : (q :: canon.filter
              (fun p => decide (p.1 ∉ excl) && decide (p.2 = ds))).getLast? = some p := by
            cases hf : canon.filter (fun p => decide (p.1 ∉ excl) && decide (p.2 = ds)) with
            | nil =>
              rw [hf] at h
              simp at h
            | cons a l =>
              rw [hf] at h
              rw [List.getLast?_cons_cons]
              exact h
          rw [hgl]
      · rw [if_neg (by simp [hq2])]
        rw [ih (dictUpsert m q.2 q.1) ds]
        cases h : (canon.filter (fun p => decide (p.1 ∉ excl) && decide (p.2 = ds))).getLast? with
        | none =>
          show dictFind (dictUpsert m q.2 q.1) ds = dictFind m ds
          exact dictFind_dictUpsert_ne m q.2 ds q.1 (fun hk => hq2 hk.symm)
        | some p => rfl
    · rw [if_neg hq1, if_neg (by simp [hq1])]
      exact ih m ds

theorem pairwise_getLast?_max (M : List (Nat × List Nat))
    (hM : List.Pairwise (fun p q : Nat × List Nat => p.1 < q.1) M)
    (p : Nat × List Nat) (h : M.getLast? = some p) :
    p ∈ M ∧ ∀ q ∈ M, q.1 ≤ p.1 := by
  induction M with
  | nil => simp at h
  | cons a M ih =>
    obtain ⟨h1, h2⟩ := List.pairwise_cons.mp hM
    cases M with
    | nil =>
      rw [show ([a] : List (Nat × List Nat)).getLast? = some a from rfl] at h
      obtain rfl := Option.some.inj h
      refine ⟨List.mem_singleton.mpr rfl, ?_⟩
      intro q hq
      rw [List.mem_singleton.mp hq]
    | cons b M' =>
      rw [List.getLast?_cons_cons] at h
      obtain ⟨hp1, hp2⟩ := ih h2 h
      refine ⟨List.mem_cons_of_mem a hp1, ?_⟩
      intro q hq
      rcases List.mem_cons.mp hq with rfl | hq'
      · exact le_of_lt (h1 p hp1)
      · exact hp2 q hq'

/-- Claim C8: the composition table is the inverse of the canonical
decomposition map restricted to non-excluded codepoints, and when several
non-excluded codepoints share the same decomposition sequence the table
maps the sequence to the greatest such codepoint (insertion in ascending
codepoint order, last write wins). -/
theorem claim_C8 (canon : List (Nat × List Nat)) (excl : Finset Nat)
    (hs : List.Pairwise (fun p q : Nat × List Nat => p.1 < q.1) canon) :
    ∀ ds c, dictFind (compositionTable canon excl) ds = some c
      ↔ ((c, ds) ∈ canon ∧ c ∉ excl
          ∧ ∀ p ∈ canon, p.2 = ds → p.1 ∉ excl → p.1 ≤ c) := by
  intro ds c
  unfold compositionTable
  rw [comp_fold_lookup excl canon [] ds]
  have hMmem : ∀ p : Nat × List Nat,
      p ∈ canon.filter (fun p => decide (p.1 ∉ excl) && decide (p.2 = ds))
        ↔ p ∈ canon ∧ p.1 ∉ excl ∧ p.2 = ds := by
    intro p
    rw [List.mem_filter]
    simp only [Bool.and_eq_true, decide_eq_true_eq]
  have hMsort : List.Pairwise (fun p q : Nat × List Nat => p.1 < q.1)
      (canon.filter (fun p => decide (p.1 ∉ excl) && decide (p.2 = ds))) :=
    List.Pairwise.sublist (List.filter_sublist canon) hs
  constructor
  · intro h
    cases hlast : (canon.filter (fun p => decide (p.1 ∉ excl) && decide (p.2 = ds))).getLast? with
    | none =>
      rw [hlast] at h
      exact Option.noConfusion (h : (none : Option Nat) = some c)
    | some p =>
      rw [hlast] at h
      obtain rfl : p.1 = c := Option.some.inj (h : some p.1 = some c)
      obtain ⟨hpM, hpmax⟩ := pairwise_getLast?_max _ hMsort p hlast
      obtain ⟨hpc, hpe, hpd⟩ := (hMmem p).mp hpM
      have hpself : (p.1, ds) = p := by
        rw [show p = (p.1, p.2) from rfl, hpd]
      refine ⟨hpself ▸ hpc, hpe, ?_⟩
      intro q hq hqd hqe
      exact hpmax q ((hMmem q).mpr ⟨hq, hqe, hqd⟩)
  · rintro ⟨hc, he, hmax⟩
    have hcM : ((c, ds) : Nat × List Nat)
        ∈ canon.filter (fun p => decide (p.1 ∉ excl) && decide (p.2 = ds)) :=
      (hMmem (c, ds)).mpr ⟨hc, he, rfl⟩
    cases hlast : (canon.filter (fun p => decide (p.1 ∉ excl) && decide (p.2 = ds))).getLast? with
    | none =>
      have hnil := List.getLast?_eq_none_iff.mp hlast
      rw [hnil] at hcM
      simp at hcM
    | some p =>
      obtain ⟨hpM, hpmax⟩ := pairwise_getLast?_max _ hMsort p hlast
      obtain ⟨hpc, hpe, hpd⟩ := (hMmem p).mp hpM
      have h1 : c ≤ p.1 := hpmax (c, ds) hcM
      have h2 : p.1 ≤ c := hmax p hpc hpd hpe
      show some p.1 = some c
      rw [show p.1 = c by omega]

theorem claim_C8_witness :
    dictFind (compositionTable [(5, [1, 2]), (7, [1, 2])] ∅) [1, 2] = some 7 :=
  ((claim_C8 [(5, [1, 2]), (7, [1, 2])] ∅ (by decide)) [1, 2] 7).mpr (by decide)

end MakeTables

namespace MakeTables

theorem dictFind_eq_none_iff {κ ν : Type} [DecidableEq κ] (m : List (κ × ν)) (k : κ) :
    dictFind m k = none ↔ ∀ p ∈ m, p.1 ≠ k := by
  unfold dictFind
  rw [Option.map_eq_none', List.find?_eq_none]
  simp

theorem dictFind_isSome_of_mem_keys {κ ν : Type} [DecidableEq κ] {m : List (κ × ν)} {k : κ}
    (h : k ∈ m.map Prod.fst) : dictFind m k ≠ none := by
  intro hnone
  obtain ⟨p, hp, hpk⟩ := List.mem_map.mp h
  exact (dictFind_eq_none_iff m k).mp hnone p hp hpk

theorem foldDefault_eq (L : List (Nat × Nat)) :
    ∀ F : List (Nat × Nat), (L.map Prod.fst).Nodup →
      L.foldl foldDefaultStep F
        = F ++ (L.filter (fun p => (dictFind F p.1).isNone)).map (fun p => (p.1, p.1)) := by
  induction L with
  | nil =>
    intro F _
    simp
  | cons p L ih =>
    intro F hnd
    rw [List.map_cons, List.nodup_cons] at hnd
    obtain ⟨h1, h2⟩ := hnd
    rw [List.foldl_cons, List.filter_cons]
    by_cases h : dictFind F p.1 = none
    · have hstep : foldDefaultStep F p = F ++ [(p.1, p.1)] := by
        unfold foldDefaultStep
        rw [if_pos h]
      rw [hstep, ih (F ++ [(p.1, p.1)]) h2]
      have hpred : ((dictFind F p.1).isNone : Bool) = true := by
        rw [h]
        rfl
      rw [if_pos hpred]
      have hfc : L.filter (fun q => (dictFind (F ++ [(p.1, p.1)]) q.1).isNone)
          = L.filter (fun q => (dictFind F q.1).isNone) := by
        apply List.filter_congr
        intro q hq
        rw [dictFind_append]
        cases hFq : dictFind F q.1 with
        | some v => rfl
        | none =>
          simp only
          rw [dictFind_cons, dictFind_nil,
            if_neg (fun hk : p.1 = q.1 => h1 (hk ▸ List.mem_map.mpr ⟨q, hq, rfl⟩))]
      rw [hfc, List.map_cons, List.append_assoc, List.singleton_append]
    · have hstep : foldDefaultStep F p = F := by
        unfold foldDefaultStep
        rw [if_neg h]
      rw [hstep, ih F h2]
      have hpred : ¬ (((dictFind F p.1).isNone : Bool) = true) := by
        cases hF : dictFind F p.1 with
        | none => exact absurd hF h
        | some v => simp
      rw [if_neg hpred]

theorem dictFind_selfmap (m : List (Nat × Nat)) (c : Nat) :
    dictFind (m.map (fun p => (p.1, p.1))) c
      = if c ∈ m.map Prod.fst then some c else none := by
  induction m with
  | nil => simp [dictFind]
  | cons p m ih =>
    rw [List.map_cons, dictFind_cons, List.map_cons]
    by_cases h : p.1 = c
    · rw [if_pos h]
      rw [if_pos (List.mem_cons_self _ _ |> fun hm => h ▸ hm)]
      simp [h]
    · rw [if_neg h, ih]
      by_cases h2 : c ∈ m.map Prod.fst
      · rw [if_pos h2, if_pos (List.mem_cons_of_mem _ h2)]
      · rw [if_neg h2, if_neg (by
          intro hc
          rcases List.mem_cons.mp hc with hc | hc
          · exact h hc.symm
          · exact h2 hc)]

theorem dictFind_filter (m : List (Nat × Nat)) (pred : Nat × Nat → Bool) (k : Nat)
    (hnd : (m.map Prod.fst).Nodup) :
    dictFind (m.filter pred) k
      = match dictFind m k with
        | some v => if pred (k, v) then some v else none
        | none => none := by
  induction m with
  | nil => rfl
  | cons p m ih =>
    rw [List.map_cons, List.nodup_cons] at hnd
    obtain ⟨h1, h2⟩ := hnd
    rw [List.filter_cons, dictFind_cons]
    by_cases hk : p.1 = k
    · have hpk : p = (k, p.2) := by
        rw [show p = (p.1, p.2) from rfl, hk]
      rw [if_pos hk]
      by_cases hp : pred p = true
      · rw [if_pos hp, dictFind_cons, if_pos hk]
        simp only
        rw [if_pos (hpk ▸ hp)]
      · rw [if_neg hp]
        have hnotin : dictFind (m.filter pred) k = none := by
          rw [dictFind_eq_none_iff]
          intro q hq hqk
          have hqm := List.mem_of_mem_filter hq
          exact h1 (hk ▸ hqk ▸ List.mem_map.mpr ⟨q, hqm, rfl⟩)
        rw [hnotin]
        simp only
        rw [if_neg (fun hc => hp (hpk ▸ hc))]
    · rw [if_neg hk]
      by_cases hp : pred p = true
      · rw [if_pos hp, dictFind_cons, if_neg hk]
        exact ih h2
      · rw [if_neg hp]
        exact ih h2

theorem nodup_keys_foldDefault (L F : List (Nat × Nat))
    (hL : (L.map Prod.fst).Nodup) (hF : (F.map Prod.fst).Nodup) :
    ((L.foldl foldDefaultStep F).map Prod.fst).Nodup := by
  rw [foldDefault_eq L F hL, List.map_append, List.nodup_append]
  refine ⟨hF, ?_, ?_⟩
  · have hsub : ((L.filter (fun p => (dictFind F p.1).isNone)).map (fun p => (p.1, p.1))).map
        Prod.fst = (L.filter (fun p => (dictFind F p.1).isNone)).map Prod.fst := by
      rw [List.map_map]
      rfl
    rw [hsub]
    exact hL.sublist (List.Sublist.map Prod.fst (List.filter_sublist L))
  · intro a ha hb
    obtain ⟨q, hq, hqa⟩ := List.mem_map.mp hb
    obtain ⟨r, hr, hra⟩ := List.mem_map.mp hq
    have hrnone : (dictFind F r.1).isNone = true := (List.mem_filter.mp hr).2
    have hnone : dictFind F a = none := by
      have : r.1 = a := by
        rw [← hqa, ← hra]
      rw [← this]
      cases hFr : dictFind F r.1 with
      | none => rfl
      | some v =>
        rw [hFr] at hrnone
        simp at hrnone
    exact dictFind_isSome_of_mem_keys ha hnone

end MakeTables

namespace MakeTables

/-- Claim C5, corrected: after fold normalization a codepoint with a
simple-lowercase mapping but no explicit simple fold record is assigned a
fold equal to the codepoint itself (not to its lowercase value), and then
every codepoint whose fold equals its simple-lowercase mapping is dropped;
so the emitted simple-fold table holds exactly the explicit folds that
differ from the codepoint's lowercase mapping plus a self-fold for every
codepoint that has a lowercase mapping different from itself but no fold
record.  A codepoint whose explicit fold equals its lowercase mapping
(e.g. U+0041 folding to U+0061) is omitted; an `F`-status record with a
multi-codepoint mapping (e.g. for U+0130) is stored in the full-fold
table. -/
theorem claim_C5 (L F : List (Nat × Nat))
    (hL : (L.map Prod.fst).Nodup) (hF : (F.map Prod.fst).Nodup) :
    (∀ c, dictFind (foldNormalize L F) c
      = match dictFind F c with
        | some v =>
          (match dictFind L c with
           | some l => if l = v then none else some v
           | none => some v)
        | none =>
          (match dictFind L c with
           | some l => if l = c then none else some c
           | none => none))
    ∧ (∀ (st : List (Nat × Nat) × List (Nat × List Nat)) (code : Nat) (mapping : List Nat),
        1 < mapping.length →
        case_folding_record st code "F" mapping = some (st.1, dictUpsert st.2 code mapping)) := by
  constructor
  · intro c
    cases hFc : dictFind F c with
    | some v =>
      cases hLc : dictFind L c with
      | some l =>
        unfold foldNormalize
        rw [dictFind_filter _ _ c (nodup_keys_foldDefault L F hL hF), foldDefault_eq L F hL,
          dictFind_append, hFc]
        simp only [hLc]
        by_cases h : l = v
        · simp [h]
        · simp [h]
      | none =>
        unfold foldNormalize
        rw [dictFind_filter _ _ c (nodup_keys_foldDefault L F hL hF), foldDefault_eq L F hL,
          dictFind_append, hFc]
        simp only [hLc]
        simp
    | none =>
      cases hLc : dictFind L c with
      | some l =>
        unfold foldNormalize
        rw [dictFind_filter _ _ c (nodup_keys_foldDefault L F hL hF), foldDefault_eq L F hL,
          dictFind_append, hFc]
        simp only [dictFind_selfmap]
        have hcL : c ∈ L.map Prod.fst := by
          by_contra hcon
          have hnone : dictFind L c = none := by
            rw [dictFind_eq_none_iff]
            intro p hp hpk
            exact hcon (hpk ▸ List.mem_map.mpr ⟨p, hp, rfl⟩)
          rw [hnone] at hLc
          exact Option.noConfusion hLc
        have hmem : c ∈ (L.filter (fun p => (dictFind F p.1).isNone)).map Prod.fst := by
          obtain ⟨p, hp, hpk⟩ := List.mem_map.mp hcL
          refine List.mem_map.mpr ⟨p, List.mem_filter.mpr ⟨hp, ?_⟩, hpk⟩
          rw [hpk, hFc]
          rfl
        rw [if_pos hmem]
        simp only [hLc]
        by_cases h : l = c
        · simp [h]
        · simp [h]
      | none =>
        unfold foldNormalize
        rw [dictFind_filter _ _ c (nodup_keys_foldDefault L F hL hF), foldDefault_eq L F hL,
          dictFind_append, hFc]
        simp only [dictFind_selfmap]
        have hmem : c ∉ (L.filter (fun p => (dictFind F p.1).isNone)).map Prod.fst := by
          intro hmem
          obtain ⟨p, hp, hpk⟩ := List.mem_map.mp hmem
          exact dictFind_isSome_of_mem_keys
            (List.mem_map.mpr ⟨p, List.mem_of_mem_filter hp, hpk⟩) hLc
        rw [if_neg hmem]
  · intro st code mapping hlen
    unfold case_folding_record
    rw [if_neg (by decide), if_pos rfl, if_pos hlen]

/-- Claim C5 as stated is false: with simple_lower = {U+0130: U+0069} and
no explicit fold record, the normalized fold table maps U+0130 to U+0130
itself — the defaulted fold is the codepoint, not its lowercase value
U+0069, and the entry is kept rather than dropped. -/
theorem claim_C5_counterexample :
    dictFind (foldNormalize [(0x130, 0x69)] []) 0x130 = some 0x130
    ∧ (0x130 : Nat) ≠ 0x69 := by decide

theorem claim_C5_witness :
    dictFind (foldNormalize [(0x41, 0x61)] [(0x41, 0x61)]) 0x41 = none
    ∧ case_folding_record ([], []) 0x130 "F" [0x69, 0x307]
        = some ([], dictUpsert [] 0x130 [0x69, 0x307]) := by
  constructor
  · have h := (claim_C5 [(0x41, 0x61)] [(0x41, 0x61)] (by decide) (by decide)).1 0x41
    rw [h]
    rfl
  · exact (claim_C5 [(0x41, 0x61)] [(0x41, 0x61)] (by decide) (by decide)).2
      ([], []) 0x130 [0x69, 0x307] (by decide)

end MakeTables

namespace MakeTables

theorem hexDigit_ne_semi (m : Nat) (h : m < 16) : hexDigit m ≠ ';' := by
  interval_cases m <;> decide

theorem hexVal_hexDigit (m : Nat) (h : m < 16) : hexVal (hexDigit m) = m := by
  interval_cases m <;> decide

theorem natToHex_ne_semi (n : Nat) : ∀ ch ∈ natToHex n, ch ≠ ';' := by
  induction n using Nat.strong_induction_on with
  | _ n ih =>
    rw [natToHex]
    by_cases h : n < 16
    · rw [if_pos h]
      intro ch hch
      rw [List.mem_singleton.mp hch]
      exact hexDigit_ne_semi n h
    · rw [if_neg h]
      intro ch hch
      rcases List.mem_append.mp hch with hch | hch
      · exact ih (n / 16) (Nat.div_lt_self (by omega) (by omega)) ch hch
      · rw [List.mem_singleton.mp hch]
        exact hexDigit_ne_semi (n % 16) (Nat.mod_lt n (by omega))

theorem natToHex_ne_nil (n : Nat) : natToHex n ≠ [] := by
  rw [natToHex]
  by_cases h : n < 16
  · rw [if_pos h]
    simp
  · rw [if_neg h]
    simp

theorem hexFromChars_append (l : List Char) (c : Char) :
    hexFromChars (l ++ [c]) = 16 * hexFromChars l + hexVal c := by
  unfold hexFromChars
  rw [List.foldl_append, List.foldl_cons, List.foldl_nil]

theorem hexFromChars_natToHex (n : Nat) : hexFromChars (natToHex n) = n := by
  induction n using Nat.strong_induction_on with
  | _ n ih =>
    rw [natToHex]
    by_cases h : n < 16
    · rw [if_pos h]
      show 16 * 0 + hexVal (hexDigit n) = n
      rw [hexVal_hexDigit n h]
      omega
    · rw [if_neg h, hexFromChars_append,
        ih (n / 16) (Nat.div_lt_self (by omega) (by omega)),
        hexVal_hexDigit (n % 16) (Nat.mod_lt n (by omega))]
      omega

theorem takeUntilSemi_spec (xs : List Char) (rest : List Char) (h : (';' : Char) ∉ xs) :
    takeUntilSemi (xs ++ (';' :: rest)) = (xs, rest) := by
  induction xs with
  | nil =>
    unfold takeUntilSemi
    simp
  | cons c cs ih =>
    rw [List.cons_append]
    unfold takeUntilSemi
    rw [if_neg (fun hc => h (List.mem_cons.mpr (Or.inl hc.symm)))]
    rw [ih (fun hc => h (List.mem_cons_of_mem c hc))]

theorem encodeNames_go (recs : List (Nat × List Char)) :
    ∀ init : List Char,
      recs.foldl (fun s p => s ++ natToHex p.1 ++ ((';' :: p.2) ++ [';'])) init
        = init ++ encodeNames recs := by
  induction recs with
  | nil =>
    intro init
    simp [encodeNames]
  | cons p ps ih =>
    intro init
    have hrhs : encodeNames (p :: ps)
        = (([] : List Char) ++ natToHex p.1 ++ ((';' :: p.2) ++ [';'])) ++ encodeNames ps := by
      show (p :: ps).foldl (fun s q => s ++ natToHex q.1 ++ ((';' :: q.2) ++ [';'])) [] = _
      rw [List.foldl_cons]
      exact ih _
    rw [List.foldl_cons, ih (init ++ natToHex p.1 ++ ((';' :: p.2) ++ [';'])), hrhs]
    simp [List.append_assoc]

theorem encodeNames_cons (p : Nat × List Char) (ps : List (Nat × List Char)) :
    encodeNames (p :: ps)
      = natToHex p.1 ++ ((';' : Char) :: (p.2 ++ ((';' : Char) :: encodeNames ps))) := by
  show (p :: ps).foldl (fun s q => s ++ natToHex q.1 ++ ((';' :: q.2) ++ [';'])) [] = _
  rw [List.foldl_cons, encodeNames_go ps]
  simp [List.append_assoc]

theorem encodeNames_length_ge (recs : List (Nat × List Char)) :
    recs.length ≤ (encodeNames recs).length := by
  induction recs with
  | nil => simp [encodeNames]
  | cons p ps ih =>
    rw [encodeNames_cons, List.length_cons]
    simp only [List.length_append, List.length_cons]
    omega

theorem parseRecords_step (f : Nat) (l : List Char) (hl : l ≠ []) :
    parseRecords (f + 1) l
      = (hexFromChars (takeUntilSemi l).1, (takeUntilSemi (takeUntilSemi l).2).1)
          :: parseRecords f (takeUntilSemi (takeUntilSemi l).2).2 := by
  cases l with
  | nil => exact absurd rfl hl
  | cons c cs => rfl

theorem parse_encode (recs : List (Nat × List Char))
    (hn : ∀ p ∈ recs, (';' : Char) ∉ p.2) :
    ∀ fuel, recs.length ≤ fuel → parseRecords fuel (encodeNames recs) = recs := by
  induction recs with
  | nil =>
    intro fuel _
    cases fuel with
    | zero => rfl
    | succ f => rfl
  | cons p ps ih =>
    intro fuel hfuel
    obtain ⟨f, rfl⟩ : ∃ f, fuel = f + 1 := by
      cases fuel with
      | zero => simp at hfuel
      | succ f => exact ⟨f, rfl⟩
    rw [encodeNames_cons,
      parseRecords_step f _ (by
        intro hc
        exact natToHex_ne_nil p.1 (List.append_eq_nil.mp hc).1),
      takeUntilSemi_spec (natToHex p.1) _ (fun hc => natToHex_ne_semi p.1 _ hc rfl),
      takeUntilSemi_spec p.2 _ (hn p (List.mem_cons_self p ps)),
      hexFromChars_natToHex,
      ih (fun q hq => hn q (List.mem_cons_of_mem p hq)) f (by
        rw [List.length_cons] at hfuel
        omega)]

/-- Claim C6: the name blob is the concatenation of `<hex>;<name>;`
records in list order, and parsing that grammar back from the
(losslessly decompressed) blob recovers exactly the records fed in; a
name lookup through the parsed blob followed by overlay substitution
yields the corrected name for every codepoint present in the overlay and
the original name for every other named codepoint. -/
theorem claim_C6 (recs overlay : List (Nat × List Char))
    (hs : List.Pairwise (· < ·) (recs.map Prod.fst))
    (hn : ∀ p ∈ recs, (';' : Char) ∉ p.2) :
    parseNames (encodeNames recs) = recs
    ∧ ∀ c nm, dictFind recs c = some nm →
        lookupParsedName (encodeNames recs) overlay c
          = some ((dictFind overlay c).getD nm) := by
  have h1 : parseNames (encodeNames recs) = recs :=
    parse_encode recs hn _ (encodeNames_length_ge recs)
  refine ⟨h1, ?_⟩
  intro c nm hc
  unfold lookupParsedName
  rw [h1, hc]

theorem claim_C6_witness :
    parseNames (encodeNames [(0x41, ['A']), (0x45, ['B'])]) = [(0x41, ['A']), (0x45, ['B'])]
    ∧ lookupParsedName (encodeNames [(0x41, ['A']), (0x45, ['B'])]) [(0x41, ['C'])] 0x41
        = some ((dictFind [(0x41, ['C'])] (0x41 : Nat)).getD ['A']) :=
  ⟨(claim_C6 [(0x41, ['A']), (0x45, ['B'])] [(0x41, ['C'])] (by decide) (by decide)).1,
   (claim_C6 [(0x41, ['A']), (0x45, ['B'])] [(0x41, ['C'])] (by decide) (by decide)).2
     0x41 ['A'] (by decide)⟩

end MakeTables
